import Mathlib

/-!
Verification of the jsonl-reader engine (sparse indexer, page reader, search
service) against its natural-language specification.

The embedding works on byte strings (`List Nat`, one entry per byte).  All
source functions decode with UTF-8 and then split on the newline character;
since the newline byte `10` never occurs inside a multi-byte UTF-8 sequence,
splitting the decoded text on `'\n'` coincides with splitting the raw bytes
on byte `10`, and `Buffer.byteLength s` is the byte length.  The embedding
therefore represents every JavaScript string by its UTF-8 bytes.
-/

set_option autoImplicit false

namespace JsonlVerify

/-- A byte string: one `Nat` (0..255) per byte. -/
abbrev Bytes := List Nat

/-- Splitting on the newline byte, mirroring JavaScript `s.split('\n')`:
the result is always non-empty, and a trailing newline yields a trailing
empty fragment. -/
def splitNl : Bytes → List Bytes
  | [] => [[]]
  | b :: rest =>
    let s := splitNl rest
    if b = 10 then [] :: s else (b :: s.headD []) :: s.tail

/-- Joining fragments with newline bytes, the inverse of `splitNl`. -/
def joinNl : List Bytes → Bytes
  | [] => []
  | l :: ls => l ++ if ls.isEmpty then [] else 10 :: joinNl ls

/-- `raw.endsWith('\r') ? raw.slice(0, -1) : raw` — drop one trailing
carriage-return byte. -/
def stripCR (l : Bytes) : Bytes :=
  if l.getLast? = some 13 then l.dropLast else l

/-- JavaScript whitespace bytes relevant to `String.prototype.trim` on
JSONL content (tab, LF, VT, FF, CR, space). -/
def isWsByte (b : Nat) : Bool :=
  b = 9 || b = 10 || b = 11 || b = 12 || b = 13 || b = 32

/-- `s.trim()` is falsy exactly when every character is whitespace. -/
def isBlank (l : Bytes) : Bool := l.all isWsByte

/-- ASCII lower-casing of one byte, the fragment of
`String.prototype.toLowerCase` exercised by the claims (all concrete
queries and lines are ASCII). -/
def lowerByte (b : Nat) : Nat :=
  if 65 ≤ b ∧ b ≤ 90 then b + 32 else b

/-- `haystack.includes(needle)`: `needle` occurs as a contiguous
subsequence of `haystack`. -/
def containsSeq (haystack needle : Bytes) : Bool :=
  match haystack with
  | [] => needle = []
  | _ :: rest => needle.isPrefixOf haystack || containsSeq rest needle

/-! ### JSON.parse success predicate

The services call the host platform's `JSON.parse` (not code of this
repository) only to decide per-line success or failure.  `jsonOk` models
its success predicate by a standard recursive-descent validity check of
the JSON grammar (RFC 8259): a value is an object, array, string, number,
`true`, `false` or `null`; the whole input must be consumed. -/

/-- Skip JSON insignificant whitespace (space, tab, LF, CR). -/
def jsonWs : Bytes → Bytes
  | b :: rest => if b = 32 ∨ b = 9 ∨ b = 10 ∨ b = 13 then jsonWs rest else b :: rest
  | [] => []

/-- Consume one or more decimal digits. -/
def jsonDigits : Bytes → Option Bytes
  | b :: rest =>
    if 48 ≤ b ∧ b ≤ 57 then
      match jsonDigits rest with
      | some r => some r
      | none => some rest
    else none
  | [] => none

/-- Consume the body of a JSON number after an optional leading minus. -/
def jsonNumBody (l : Bytes) : Option Bytes := do
  let r ← jsonDigits l
  let r := match r with
    | 46 :: r2 => (jsonDigits r2).getD r
    | _ => r
  match r with
  | e :: r2 =>
    if e = 101 ∨ e = 69 then
      match r2 with
      | s :: r3 => if s = 43 ∨ s = 45 then jsonDigits r3 else jsonDigits r2
      | [] => none
    else some r
  | [] => some r

/-- Consume the remainder of a JSON string after the opening quote. -/
def jsonStr : Bytes → Option Bytes
  | [] => none
  | 34 :: rest => some rest
  | 92 :: _ :: rest => jsonStr rest
  | _ :: rest => jsonStr rest

mutual

/-- Consume one JSON value. -/
def jsonVal : Nat → Bytes → Option Bytes
  | 0, _ => none
  | _ + 1, [] => none
  | fuel + 1, b :: rest =>
    if b = 34 then jsonStr rest
    else if b = 123 then jsonMembers fuel (jsonWs rest) true
    else if b = 91 then jsonElems fuel (jsonWs rest) true
    else if b = 116 then
      match rest with
      | 114 :: 117 :: 101 :: r => some r
      | _ => none
    else if b = 102 then
      match rest with
      | 97 :: 108 :: 115 :: 101 :: r => some r
      | _ => none
    else if b = 110 then
      match rest with
      | 117 :: 108 :: 108 :: r => some r
      | _ => none
    else if b = 45 then jsonNumBody rest
    else jsonNumBody (b :: rest)

/-- Consume object members up to and including the closing brace; `first`
is true before the first member. -/
def jsonMembers : Nat → Bytes → Bool → Option Bytes
  | 0, _, _ => none
  | _ + 1, 125 :: rest, true => some rest
  | fuel + 1, l, first => do
    let l ← if first then pure l else
      match l with
      | 44 :: r => pure (jsonWs r)
      | _ => none
    let l ← match l with
      | 34 :: r => jsonStr r
      | _ => none
    let l := jsonWs l
    let l ← match l with
      | 58 :: r => pure (jsonWs r)
      | _ => none
    let l ← jsonVal fuel l
    let l := jsonWs l
    match l with
    | 125 :: r => some r
    | _ => jsonMembers fuel l false

/-- Consume array elements up to and including the closing bracket. -/
def jsonElems : Nat → Bytes → Bool → Option Bytes
  | 0, _, _ => none
  | _ + 1, 93 :: rest, true => some rest
  | fuel + 1, l, first => do
    let l ← if first then pure l else
      match l with
      | 44 :: r => pure (jsonWs r)
      | _ => none
    let l ← jsonVal fuel l
    let l := jsonWs l
    match l with
    | 93 :: r => some r
    | _ => jsonElems fuel l false

end

/-- `JSON.parse(s)` succeeds: one value, then only whitespace. -/
def jsonOk (l : Bytes) : Bool :=
  match jsonVal (l.length + 1) (jsonWs l) with
  | some rest => jsonWs rest = []
  | none => false

/-! ### Data model (src/models/types.ts) -/

/-- `SparseIndexEntry { line, offset }`. -/
structure SparseIndexEntry where
  line : Nat
  offset : Nat
  deriving DecidableEq, Repr

/-- `JsonlLine { lineNumber, raw, parsed, error?, byteOffset }`.  The
decoded JSON value itself is irrelevant to every claim, so `parsed` is
represented by whether a parsed value is attached (`parsedOk`, false when
the line is blank or failed to parse — `parsed` is `null` then) and
`error` by whether a parse-error message is attached. -/
structure JsonlLine where
  lineNumber : Nat
  raw : Bytes
  parsedOk : Bool
  error : Bool
  byteOffset : Nat
  deriving DecidableEq, Repr

instance : Inhabited JsonlLine := ⟨⟨0, [], false, false, 0⟩⟩

/-- `PageData` as returned by `JsonlReader.readPage`. -/
structure PageData where
  lines : List JsonlLine
  currentPage : Int
  totalPages : Nat
  totalLines : Nat
  pageSize : Nat
  isIndexed : Bool
  deriving DecidableEq, Repr

/-! ### SparseIndexer (jsonlIndexer.ts)

The indexer streams the file in 64 KB chunks and scans each chunk byte by
byte; the checkpoint pushed at a newline depends only on the absolute
byte position, so the byte-wise scan below is the chunk loop's inner
body, and the chunked driver `runIndexingJob` iterates it per chunk. -/

/-- `INDEX_STRIDE = 1000`.  The scan takes the stride as a parameter
(instantiated with this constant by the source). -/
def INDEX_STRIDE : Nat := 1000

/-- `READ_BUFFER_SIZE = 64 * 1024`. -/
def READ_BUFFER_SIZE : Nat := 64 * 1024

/-- One `onProgress` call: `scannedLines` and the `indexed` flag.  The
floating-point `progress` ratio and the echoed `filePath`/`fileSize` do
not figure in any claim and are omitted. -/
structure IdxEvent where
  scannedLines : Nat
  indexed : Bool
  deriving DecidableEq, Repr

/-- The indexing job's mutable locals: `lineNumber`, `lastStoredLine`,
the checkpoint array for the file, and the progress events emitted so
far. -/
structure IdxState where
  lineNumber : Nat
  lastStoredLine : Nat
  checkpoints : List SparseIndexEntry
  events : List IdxEvent
  deriving DecidableEq, Repr

/-- The body of the byte loop in `runIndexingJob` for one byte `b` at
absolute file position `pos`. -/
def idxStep (stride : Nat) (st : IdxState) (pos b : Nat) : IdxState :=
  if b = 10 then
    let ln := st.lineNumber + 1
    if stride ≤ ln - st.lastStoredLine then
      { lineNumber := ln
        lastStoredLine := ln
        checkpoints := st.checkpoints ++ [⟨ln, pos + 1⟩]
        events := st.events ++ [⟨ln, false⟩] }
    else { st with lineNumber := ln }
  else st

/-- Byte-wise scan of a byte sequence starting at absolute position
`pos`. -/
def idxScanFrom (stride : Nat) (st : IdxState) (pos : Nat) : Bytes → IdxState
  | [] => st
  | b :: rest => idxScanFrom stride (idxStep stride st pos b) (pos + 1) rest

/-- State installed by `startIdx`: seed checkpoint `{line:1, offset:0}`,
line counters at 1, nothing emitted. -/
def idxInit : IdxState :=
  { lineNumber := 1, lastStoredLine := 1, checkpoints := [⟨1, 0⟩], events := [] }

/-- The indexer state after the scan has consumed the first `k` bytes of
the file (`k ≥ file.length` is the completed scan).  Every cooperative
yield point during indexing exposes one of these states. -/
def idxStateAfter (file : Bytes) (stride k : Nat) : IdxState :=
  idxScanFrom stride idxInit 0 (file.take k)

/-- Result of a whole `runIndexingJob` call: the final checkpoint list,
the recorded `totalLines` (if any), and the emitted events. -/
structure JobResult where
  checkpoints : List SparseIndexEntry
  totalLines : Option Nat
  events : List IdxEvent
  deriving DecidableEq, Repr

/-- The `while (this.activeJobs.get(filePath))` chunk loop.  `stopAt` is
the loop-iteration index from which the job is seen as inactive (a
`stop(filePath)` call flips the flag between two awaits; the loop
observes it at its next check).  Returns the state when the loop
exits. -/
def runIdxLoop (file : Bytes) (stride stopAt : Nat) :
    Nat → Nat → Nat → IdxState → IdxState × Nat
  | 0, _, fileOffset, st => (st, fileOffset)
  | fuel + 1, iter, fileOffset, st =>
    if stopAt ≤ iter then (st, fileOffset)
    else
      let chunk := (file.drop fileOffset).take READ_BUFFER_SIZE
      if chunk.length = 0 then (st, fileOffset)
      else
        let st' := idxScanFrom stride st fileOffset chunk
        let fileOffset' := fileOffset + chunk.length
        if file.length ≤ fileOffset' then (st', fileOffset')
        else runIdxLoop file stride stopAt fuel (iter + 1) fileOffset' st'

/-- `runIndexingJob`: run the chunk loop, then the completion block —
which the source executes unconditionally after the loop, whether the
loop ended at EOF or because the job was stopped: it records
`totalLines := lineNumber` and emits a final `indexed: true` progress
event. -/
def runIndexingJob (file : Bytes) (stride stopAt : Nat) : JobResult :=
  let (st, _) := runIdxLoop file stride stopAt (file.length + 1) 0 0 idxInit
  { checkpoints := st.checkpoints
    totalLines := some st.lineNumber
    events := st.events ++ [⟨st.lineNumber, true⟩] }

/-- The binary-search loop of `getNearestOffset`.  JavaScript `low`/`high`
are mirrored by `low` and `hi1 = high + 1` (both stay non-negative in the
source: `low` starts at 0 and only grows, and the loop runs only while
`low ≤ high`); the exit value `Math.max(0, low - 1)` is truncated `Nat`
subtraction `low - 1`. -/
def bsGo (l : List SparseIndexEntry) (target : Int) : Nat → Nat → Nat → Nat
  | 0, low, _ => low - 1
  | fuel + 1, low, hi1 =>
    if low < hi1 then
      let mid := (low + (hi1 - 1)) / 2
      let e := l.getD mid ⟨1, 0⟩
      if (e.line : Int) = target then mid
      else if (e.line : Int) < target then bsGo l target fuel (mid + 1) hi1
      else bsGo l target fuel low mid
    else low - 1

/-- `getNearestOffset(filePath, targetLine)`: `{1,0}` when no index
exists, otherwise the binary-search result.  `targetLine` is an `Int`
because callers pass `(page-1)*pageSize + 1`, which is negative for
`page < 1`. -/
def getNearestOffset (idx : List SparseIndexEntry) (target : Int) : SparseIndexEntry :=
  if idx.length = 0 then ⟨1, 0⟩
  else idx.getD (bsGo idx target (idx.length + 1) 0 idx.length) ⟨1, 0⟩

/-! ### PageReader (src/services/jsonlReader.ts)

The reader under `src/services` is embedded (the repository also carries
two other revisions of the same class; where behaviour differs it is
noted in the theorems).  Reads happen in 16 KB windows; a read at
position `o` returns `min(16384, fileSize - o)` bytes. -/

/-- Decode one line the way both services do: `parsed` stays `null` for a
blank line, otherwise `JSON.parse` attaches a value or an error
message. -/
def decodeLine (raw : Bytes) (lineNumber byteOffset : Nat) : JsonlLine :=
  if isBlank raw then ⟨lineNumber, raw, false, false, byteOffset⟩
  else if jsonOk raw then ⟨lineNumber, raw, true, false, byteOffset⟩
  else ⟨lineNumber, raw, false, true, byteOffset⟩

/-- `parseLine(raw, lineNumber, offset)`: strip one trailing `\r`, then
decode. -/
def parseLine (raw : Bytes) (lineNumber byteOffset : Nat) : JsonlLine :=
  decodeLine (stripCR raw) lineNumber byteOffset

/-- `16 * 1024`, the reader's window size. -/
def PAGE_BUFFER_SIZE : Nat := 16 * 1024

/-- The `for` loop over the split lines of one window: push a record for
every line numbered at or past `startLine` (the reader always passes
byte offset 0 — "偏移量暂不精确计算"), increment the line counter, and
break as soon as `count` records have been collected.  Returns the line
counter and the record accumulator. -/
def emitLines (startLine : Int) (count : Nat) :
    List Bytes → Nat → List JsonlLine → Nat × List JsonlLine
  | [], ln, acc => (ln, acc)
  | raw :: rest, ln, acc =>
    let acc' := if startLine ≤ (ln : Int) then acc ++ [parseLine raw ln 0] else acc
    if count ≤ acc'.length then (ln + 1, acc')
    else emitLines startLine count rest (ln + 1) acc'

/-- The reader loop's mutable locals. -/
structure ReadState where
  currentLineNum : Nat
  fileOffset : Nat
  leftovers : Bytes
  result : List JsonlLine
  deriving DecidableEq, Repr

/-- The `while (result.length < count)` loop of `readLinesFromOffset`:
read a window, prepend the pending `leftovers`, split on `\n`, keep the
final fragment as the new `leftovers` unless the read reached EOF, emit
the complete lines, then advance `fileOffset` by the bytes read minus the
bytes of the retained fragment (the source both re-reads those bytes and
keeps the decoded fragment — faithfully reproduced here).  Fuel bounds
the iteration count; the callers pass enough fuel for every terminating
run of the source loop. -/
def readLoop (file : Bytes) (startLine : Int) (count : Nat) :
    Nat → ReadState → ReadState
  | 0, st => st
  | fuel + 1, st =>
    if count ≤ st.result.length then st
    else
      let fileSize := file.length
      let bytesRead := min PAGE_BUFFER_SIZE (fileSize - st.fileOffset)
      if bytesRead = 0 then st
      else
        let chunk := st.leftovers ++ (file.drop st.fileOffset).take bytesRead
        let lines := splitNl chunk
        let isEOF := fileSize ≤ st.fileOffset + bytesRead
        let leftovers := if isEOF then [] else lines.getLastD []
        let procLines := if isEOF then lines else lines.dropLast
        let (ln, res) := emitLines startLine count procLines st.currentLineNum st.result
        readLoop file startLine count fuel
          { currentLineNum := ln
            fileOffset := st.fileOffset + bytesRead - leftovers.length
            leftovers := leftovers
            result := res }

/-- `readLinesFromOffset(checkpoint, startLine, count)`: run the window
loop from the checkpoint, then append a record for a pending final
fragment. -/
def readLinesFromOffset (file : Bytes) (checkpoint : SparseIndexEntry)
    (startLine : Int) (count : Nat) : List JsonlLine :=
  let st := readLoop file startLine count (file.length + 2)
    ⟨checkpoint.line, checkpoint.offset, [], []⟩
  if st.leftovers ≠ [] ∧ st.result.length < count ∧ startLine ≤ (st.currentLineNum : Int)
  then st.result ++ [parseLine st.leftovers st.currentLineNum 0]
  else st.result

/-- `estimateTotalLines(filePath, fileSize)`.  The source divides IEEE
doubles (`Math.floor(fileSize / (offset / line))`); no claim depends on
the estimated value, and for the magnitudes involved the integer form
below is the same extrapolation. -/
def estimateTotalLines (idx : List SparseIndexEntry) (fileSize : Nat) : Nat :=
  if idx.length ≤ 1 then 0
  else
    let e := idx.getLastD ⟨1, 0⟩
    fileSize * e.line / e.offset

/-- `Math.ceil(a / b)` for positive integers. -/
def ceilDiv (a b : Nat) : Nat := (a + b - 1) / b

/-- `readPage(page)`.  `idx` and `exactTotal` are the indexer's current
checkpoint list and recorded total for this file (`getNearestOffset` and
`getTotalLines` read them); `page` is an `Int` since the source never
validates it. -/
def readPage (file : Bytes) (idx : List SparseIndexEntry) (exactTotal : Option Nat)
    (pageSize : Nat) (page : Int) : PageData :=
  let targetStartLine : Int := (page - 1) * pageSize + 1
  let checkpoint := getNearestOffset idx targetStartLine
  let lines := readLinesFromOffset file checkpoint targetStartLine pageSize
  let totalLines := exactTotal.getD (estimateTotalLines idx file.length)
  let safeTotalLines := if totalLines = 0 then 1 else totalLines
  let totalPages := ceilDiv safeTotalLines pageSize
  { lines := lines
    currentPage := page
    totalPages := if totalPages = 0 then 1 else totalPages
    totalLines := safeTotalLines
    pageSize := pageSize
    isIndexed := exactTotal.isSome }

/-- `readLine(lineNumber)`: the same machinery with `count = 1`;
`lines[0] || null`. -/
def readLine (file : Bytes) (idx : List SparseIndexEntry) (lineNumber : Int) :
    Option JsonlLine :=
  (readLinesFromOffset file (getNearestOffset idx lineNumber) lineNumber 1).head?

/-! ### SearchService (src/services/searchService.ts)

The service consumes the file through a `readline` interface, so its
input here is the already-split sequence of lines (terminator bytes
removed by `readline`).  All claims exercise the literal-substring
matcher (`useRegex` false); the compiled-regex branch lives in the host's
regex engine and is outside the embedding. -/

/-- `SearchOptions` (src/models/types.ts).  `showErrorOnly` is declared
there and forwarded by the provider, but the searchService revision in
the snapshot never reads it. -/
structure SearchOptions where
  query : Bytes
  caseSensitive : Bool
  maxResults : Nat
  showErrorOnly : Bool
  deriving DecidableEq, Repr

/-- The literal matcher returned by `createMatcher` for `useRegex =
false`: lower-case both sides unless `caseSensitive`, then
`searchLine.includes(searchQuery)`. -/
def matcherAccepts (caseSensitive : Bool) (query line : Bytes) : Bool :=
  let q := if caseSensitive then query else query.map lowerByte
  let s := if caseSensitive then line else line.map lowerByte
  containsSeq s q

/-- The `rl.on('line')` handler iterated over the remaining lines:
count the line, remember the running byte offset (each line advances it
by its byte length plus one), decode and record a matching line, and —
after appending — stop the whole scan once `maxResults` results are
held.  Returns the results and the lines left unread at the stop. -/
def searchGo (opts : SearchOptions) :
    List Bytes → Nat → Nat → List JsonlLine → List JsonlLine × List Bytes
  | [], _, _, acc => (acc, [])
  | raw :: rest, lineNumber, byteOffset, acc =>
    let ln := lineNumber + 1
    let nextOffset := byteOffset + raw.length + 1
    if matcherAccepts opts.caseSensitive opts.query raw then
      let acc' := acc ++ [decodeLine raw ln byteOffset]
      if opts.maxResults ≤ acc'.length then (acc', rest)
      else searchGo opts rest ln nextOffset acc'
    else searchGo opts rest ln nextOffset acc

/-- `search(filePath, options)`: scan all lines from the start. -/
def search (opts : SearchOptions) (lines : List Bytes) :
    List JsonlLine × List Bytes :=
  searchGo opts lines 0 0 []

/-- Modelled from the spec: the `interrupted` flag attached to search
results comes from `searchService.wasSearchAborted()`, which — together
with `resetAbortState()` — the snapshot's `searchService.ts` does not
define even though `jsonlEditorProvider.ts` calls both; the searchService
revision computing the flag is missing from the snapshot.  Spec §4.3:
interrupted is set "only if stopped early due to the cap or to
cancellation — not when EOF is reached exactly at the cap", i.e. exactly
when unread lines remained at the stop. -/
def interruptedFlag (res : List JsonlLine × List Bytes) : Bool :=
  !res.2.isEmpty

/-- `SearchQuery` as the spec defines it (§3). -/
structure SearchQuery where
  text : Bytes
  caseSensitive : Bool
  maxResults : Nat
  errorsOnly : Bool
  deriving DecidableEq, Repr

/-- Modelled from the spec: the searchService revision implementing the
`errorsOnly` mode and the empty-query rejection is missing from the
snapshot (the provider forwards `showErrorOnly` and the webview sends it
with an empty query, but the snapshot's service ignores both).  Per spec
§4.3 and §8: in `errorsOnly` mode a line is a result exactly when its
JSON decode failed (blank lines decode to `null` without error, §3);
otherwise the matcher decides; the cap stops the scan as in the source
loop. -/
def searchSpecGo (q : SearchQuery) :
    List Bytes → Nat → Nat → List JsonlLine → List JsonlLine × Bool
  | [], _, _, acc => (acc, false)
  | raw :: rest, lineNumber, byteOffset, acc =>
    let ln := lineNumber + 1
    let nextOffset := byteOffset + raw.length + 1
    let record := decodeLine raw ln byteOffset
    let matched := if q.errorsOnly then record.error
                   else matcherAccepts q.caseSensitive q.text raw
    if matched then
      let acc' := acc ++ [record]
      if q.maxResults ≤ acc'.length then (acc', !rest.isEmpty)
      else searchSpecGo q rest ln nextOffset acc'
    else searchSpecGo q rest ln nextOffset acc

/-- Modelled from the spec (§4.3): "Rejects immediately (returns empty
result, not an error) if `query.text` is empty and `errorsOnly` is
false"; otherwise stream every line.  Returns the results and the
`interrupted` flag. -/
def searchSpec (q : SearchQuery) (lines : List Bytes) : List JsonlLine × Bool :=
  if q.text = [] ∧ q.errorsOnly = false then ([], false)
  else searchSpecGo q lines 0 0 []

/-! ### Webview page navigation (media/main.js) -/

/-- The guard in the webview's `changePage(p)`:
`if (p < 1 || (state.isIndexed && p > state.totalPages)) { return; }` —
a `requestPage` message is posted only when this returns true. -/
def changePageSends (p : Int) (isIndexed : Bool) (totalPages : Int) : Bool :=
  if p < 1 ∨ (isIndexed = true ∧ totalPages < p) then false else true

/-! ### Reference notions used by the claims -/

/-- The byte offset at which the (0-based) `i`-th line of a line list
starts, every line being followed by one newline byte. -/
def lineSpan (parts : List Bytes) : Nat :=
  (parts.map (fun l => l.length + 1)).sum

/-- `startOfLine parts i`: byte offset of the start of line `i`
(0-based) in the joined file. -/
def startOfLine (parts : List Bytes) (i : Nat) : Nat :=
  lineSpan (parts.take i)

/-- The file's lines in the code's own convention: the newline-split
fragments (with one trailing carriage return stripped, as every service
presents them). -/
def rawLines (F : Bytes) : List Bytes :=
  (splitNl F).map stripCR

/-- The file's sequence of lines as the spec counts them (§4.1: EOF
counts "a non-terminated trailing partial line as one more line if
non-empty"; §4.2 step 5: "a final unterminated line at EOF is included
if non-empty"): the newline-terminated lines, plus the trailing fragment
when the file does not end in a newline. -/
def specFileLines (F : Bytes) : List Bytes :=
  if F = [] then []
  else if F.getLast? = some 10 then ((splitNl F).dropLast).map stripCR
  else (splitNl F).map stripCR

/-! ### Lemmas about `splitNl` and `joinNl` -/

theorem splitNl_nil : splitNl [] = [[]] := rfl

theorem splitNl_cons (b : Nat) (rest : Bytes) :
    splitNl (b :: rest) =
      if b = 10 then [] :: splitNl rest
      else (b :: (splitNl rest).headD []) :: (splitNl rest).tail := rfl

theorem splitNl_ne_nil (F : Bytes) : splitNl F ≠ [] := by
  cases F with
  | nil => simp [splitNl]
  | cons b rest =>
    rw [splitNl_cons]
    split <;> simp

theorem splitNl_append_nl (xs ys : Bytes) :
    splitNl (xs ++ 10 :: ys) = splitNl xs ++ splitNl ys := by
  induction xs with
  | nil => simp [splitNl]
  | cons b xs ih =>
    obtain ⟨l, ls, hx⟩ : ∃ l ls, splitNl xs = l :: ls := by
      cases h : splitNl xs with
      | nil => exact absurd h (splitNl_ne_nil xs)
      | cons l ls => exact ⟨l, ls, rfl⟩
    simp only [List.cons_append, splitNl_cons, ih, hx]
    split <;> simp

theorem splitNl_no_nl (F : Bytes) : ∀ l ∈ splitNl F, 10 ∉ l := by
  induction F with
  | nil => simp [splitNl]
  | cons b rest ih =>
    obtain ⟨l0, ls0, hx⟩ : ∃ l0 ls0, splitNl rest = l0 :: ls0 := by
      cases h : splitNl rest with
      | nil => exact absurd h (splitNl_ne_nil rest)
      | cons l0 ls0 => exact ⟨l0, ls0, rfl⟩
    rw [splitNl_cons, hx]
    by_cases hb : b = 10
    · rw [if_pos hb]
      intro l hl
      rcases List.mem_cons.mp hl with h | h
      · simp [h]
      · exact ih l (hx ▸ h)
    · rw [if_neg hb]
      intro l hl
      rcases List.mem_cons.mp hl with h | h
      · subst h
        simp only [List.mem_cons, not_or, List.headD_cons]
        refine ⟨fun he => hb he.symm, ?_⟩
        have := ih l0 (by rw [hx]; exact List.mem_cons_self _ _)
        simpa using this
      · refine ih l ?_
        rw [hx]
        exact List.mem_cons_of_mem _ (by simpa using h)

theorem splitNl_of_no_nl (l : Bytes) (h : 10 ∉ l) : splitNl l = [l] := by
  induction l with
  | nil => rfl
  | cons b rest ih =>
    have hb : b ≠ 10 := fun hb => h (by simp [hb])
    have hr : splitNl rest = [rest] := ih (fun hm => h (List.mem_cons_of_mem _ hm))
    rw [splitNl_cons, if_neg hb, hr]
    rfl

theorem joinNl_cons_cons (l l1 : Bytes) (ls : List Bytes) :
    joinNl (l :: l1 :: ls) = l ++ 10 :: joinNl (l1 :: ls) := by
  simp [joinNl]

theorem joinNl_single (l : Bytes) : joinNl [l] = l := by
  simp [joinNl]

theorem joinNl_splitNl (F : Bytes) : joinNl (splitNl F) = F := by
  induction F with
  | nil => rfl
  | cons b rest ih =>
    obtain ⟨l0, ls0, hx⟩ : ∃ l0 ls0, splitNl rest = l0 :: ls0 := by
      cases h : splitNl rest with
      | nil => exact absurd h (splitNl_ne_nil rest)
      | cons l0 ls0 => exact ⟨l0, ls0, rfl⟩
    have ih2 : joinNl (l0 :: ls0) = rest := by rw [← hx]; exact ih
    rw [splitNl_cons]
    by_cases hb : b = 10
    · subst hb
      rw [if_pos rfl, hx, joinNl_cons_cons, ih2]
      rfl
    · rw [if_neg hb, hx]
      simp only [List.headD_cons, List.tail_cons]
      cases ls0 with
      | nil =>
        rw [joinNl_single] at ih2
        rw [joinNl_single, ih2]
      | cons l1 ls1 =>
        rw [joinNl_cons_cons] at ih2
        rw [joinNl_cons_cons]
        simp [← ih2]

theorem splitNl_joinNl (parts : List Bytes) (hne : parts ≠ [])
    (hnl : ∀ l ∈ parts, 10 ∉ l) : splitNl (joinNl parts) = parts := by
  induction parts with
  | nil => exact absurd rfl hne
  | cons l ls ih =>
    cases ls with
    | nil =>
      rw [joinNl_single]
      exact splitNl_of_no_nl l (hnl l (List.mem_cons_self _ _))
    | cons l1 ls1 =>
      rw [joinNl_cons_cons, splitNl_append_nl,
        splitNl_of_no_nl l (hnl l (List.mem_cons_self _ _)),
        ih (by simp) (fun x hx => hnl x (List.mem_cons_of_mem _ hx))]
      rfl

theorem lineSpan_splitNl (F : Bytes) : lineSpan (splitNl F) = F.length + 1 := by
  induction F with
  | nil => rfl
  | cons b rest ih =>
    obtain ⟨l0, ls0, hx⟩ : ∃ l0 ls0, splitNl rest = l0 :: ls0 := by
      cases h : splitNl rest with
      | nil => exact absurd h (splitNl_ne_nil rest)
      | cons l0 ls0 => exact ⟨l0, ls0, rfl⟩
    rw [splitNl_cons]
    by_cases hb : b = 10
    · rw [if_pos hb]
      simp only [lineSpan, List.map_cons, List.sum_cons, List.length_cons, List.length_nil] at ih ⊢
      omega
    · rw [if_neg hb, hx]
      rw [hx] at ih
      simp only [lineSpan, List.map_cons, List.sum_cons, List.headD_cons, List.tail_cons,
        List.length_cons] at ih ⊢
      omega

theorem splitNl_length (F : Bytes) : (splitNl F).length = F.count 10 + 1 := by
  induction F with
  | nil => rfl
  | cons b rest ih =>
    obtain ⟨l0, ls0, hx⟩ : ∃ l0 ls0, splitNl rest = l0 :: ls0 := by
      cases h : splitNl rest with
      | nil => exact absurd h (splitNl_ne_nil rest)
      | cons l0 ls0 => exact ⟨l0, ls0, rfl⟩
    rw [splitNl_cons]
    by_cases hb : b = 10
    · subst hb
      rw [if_pos rfl]
      simp only [List.length_cons, ih, List.count_cons]
      simp
    · rw [if_neg hb, hx]
      rw [hx] at ih
      simp only [List.length_cons, List.tail_cons] at ih ⊢
      rw [List.count_cons]
      simp only [beq_iff_eq]
      rw [if_neg hb]
      omega

theorem lineSpan_append (a b : List Bytes) :
    lineSpan (a ++ b) = lineSpan a + lineSpan b := by
  simp [lineSpan]

theorem startOfLine_succ (parts : List Bytes) (i : Nat) (h : i < parts.length) :
    startOfLine parts (i + 1) = startOfLine parts i + (parts.getD i []).length + 1 := by
  unfold startOfLine
  rw [List.take_succ, lineSpan_append, List.getElem?_eq_getElem h,
    List.getD_eq_getElem parts [] h]
  simp only [Option.toList_some, lineSpan, List.map_cons, List.map_nil, List.sum_cons,
    List.sum_nil]
  omega

theorem joinNl_drop (parts : List Bytes) (i : Nat) (h : i < parts.length) :
    (joinNl parts).drop (startOfLine parts i) = joinNl (parts.drop i) := by
  induction i generalizing parts with
  | zero => simp [startOfLine, lineSpan]
  | succ i ih =>
    cases parts with
    | nil => simp at h
    | cons l ls =>
      have hls : i < ls.length := by simpa using h
      have hne : ls ≠ [] := by
        intro he
        rw [he] at hls
        simp at hls
      obtain ⟨l1, ls1, rfl⟩ : ∃ l1 ls1, ls = l1 :: ls1 := by
        cases ls with
        | nil => exact absurd rfl hne
        | cons l1 ls1 => exact ⟨l1, ls1, rfl⟩
      have hs : startOfLine (l :: l1 :: ls1) (i + 1) = (l.length + 1) + startOfLine (l1 :: ls1) i := by
        unfold startOfLine
        rw [List.take_succ_cons]
        unfold lineSpan
        simp only [List.map_cons, List.sum_cons]
        try omega
      rw [hs, joinNl_cons_cons]
      have harr : (l ++ 10 :: joinNl (l1 :: ls1)) = (l ++ [10]) ++ joinNl (l1 :: ls1) := by
        simp
      rw [harr]
      have hlen : l.length + 1 + startOfLine (l1 :: ls1) i
          = (l ++ [10]).length + startOfLine (l1 :: ls1) i := by
        simp
      rw [hlen, List.drop_append, ih (l1 :: ls1) hls, List.drop_succ_cons]

theorem splitNl_drop (F : Bytes) (i : Nat) (h : i < (splitNl F).length) :
    splitNl (F.drop (startOfLine (splitNl F) i)) = (splitNl F).drop i := by
  have h1 : F.drop (startOfLine (splitNl F) i) = joinNl ((splitNl F).drop i) := by
    have h2 := joinNl_drop (splitNl F) i h
    rw [joinNl_splitNl] at h2
    exact h2
  rw [h1]
  refine splitNl_joinNl _ ?_ ?_
  · intro he
    have := congrArg List.length he
    simp at this
    omega
  · intro l hl
    exact splitNl_no_nl F l (List.mem_of_mem_drop hl)

theorem joinNl_getLast_nl (parts : List Bytes) (hne : parts ≠ [])
    (hl : parts.getLast? = some []) :
    joinNl parts = [] ∨ (joinNl parts).getLast? = some 10 := by
  induction parts with
  | nil => exact absurd rfl hne
  | cons l ls ih =>
    cases ls with
    | nil =>
      left
      simp only [List.getLast?_singleton, Option.some_inj] at hl
      rw [joinNl_single, hl]
    | cons l1 ls1 =>
      right
      rw [joinNl_cons_cons]
      have hl2 : (l1 :: ls1).getLast? = some [] := by
        rw [← List.getLast?_cons_cons]
        exact hl
      rw [List.getLast?_append_cons]
      rcases ih (by simp) hl2 with h0 | h0
      · rw [h0]
        rfl
      · cases hj : joinNl (l1 :: ls1) with
        | nil => rw [hj] at h0; simp at h0
        | cons x xs =>
          rw [hj] at h0
          rw [List.getLast?_cons_cons]
          exact h0

theorem lineSpan_ge_of_mem (parts : List Bytes) (x : Bytes) (hx : x ∈ parts) :
    x.length + 1 ≤ lineSpan parts := by
  induction parts with
  | nil => simp at hx
  | cons l ls ih =>
    unfold lineSpan at ih ⊢
    simp only [List.map_cons, List.sum_cons]
    rcases List.mem_cons.mp hx with h | h
    · subst h
      omega
    · have := ih h
      omega

theorem getLast?_drop_eq (parts : List Bytes) (i : Nat) (h : i < parts.length) :
    (parts.drop i).getLast? = parts.getLast? := by
  induction parts generalizing i with
  | nil => simp at h
  | cons l ls ih =>
    cases i with
    | zero => rfl
    | succ i =>
      have hls : i < ls.length := by simpa using h
      rw [List.drop_succ_cons, ih i hls]
      cases ls with
      | nil => simp at hls
      | cons a as => rw [List.getLast?_cons_cons]

theorem startOfLine_lt (F : Bytes) (hne : F ≠ []) (hlast : F.getLast? ≠ some 10)
    (i : Nat) (hi : i < (splitNl F).length) :
    startOfLine (splitNl F) i < F.length := by
  set parts := splitNl F with hparts
  have hspan : startOfLine parts i + lineSpan (parts.drop i) = F.length + 1 := by
    unfold startOfLine
    rw [← lineSpan_append, List.take_append_drop, hparts, lineSpan_splitNl]
  have hdne : parts.drop i ≠ [] := by
    intro he
    have := congrArg List.length he
    simp at this
    omega
  obtain ⟨lf, hlf⟩ : ∃ lf, parts.getLast? = some lf := by
    cases h : parts.getLast? with
    | none => exact absurd (List.getLast?_eq_none_iff.mp h) (hparts ▸ splitNl_ne_nil F)
    | some lf => exact ⟨lf, rfl⟩
  have hlfne : lf ≠ [] := by
    intro he
    subst he
    rcases joinNl_getLast_nl parts (hparts ▸ splitNl_ne_nil F) hlf with h0 | h0
    · rw [hparts, joinNl_splitNl] at h0
      exact hne h0
    · rw [hparts, joinNl_splitNl] at h0
      exact hlast h0
  have hmem : lf ∈ parts.drop i := by
    have h1 : (parts.drop i).getLast? = some lf := by
      rw [getLast?_drop_eq parts i hi, hlf]
    rcases List.mem_getLast?_eq_getLast (by rw [h1]; rfl : lf ∈ (parts.drop i).getLast?)
      with ⟨hne2, hx⟩
    rw [hx]
    exact List.getLast_mem hne2
  have := lineSpan_ge_of_mem (parts.drop i) lf hmem
  have hlf1 : 1 ≤ lf.length := by
    cases lf with
    | nil => exact absurd rfl hlfne
    | cons a as => simp
  omega

/-! ### Indexer invariants -/

theorem mem_of_getLast?_eq {α : Type} (l : List α) (x : α) (h : l.getLast? = some x) :
    x ∈ l := by
  rcases List.mem_getLast?_eq_getLast (by rw [h]; rfl : x ∈ l.getLast?) with ⟨hne, hx⟩
  rw [hx]
  exact List.getLast_mem hne

/-- Strict growth of consecutive checkpoints in both fields. -/
def cpMono (a b : SparseIndexEntry) : Prop := a.line < b.line ∧ a.offset < b.offset

instance : DecidableRel cpMono := fun a b => by unfold cpMono; infer_instance

/-- Scan invariant: seeded head, strictly increasing entries, and all
entries bounded by the running counters. -/
def IdxInv (st : IdxState) (pos : Nat) : Prop :=
  st.checkpoints.head? = some ⟨1, 0⟩ ∧
  List.Chain' cpMono st.checkpoints ∧
  ∀ e ∈ st.checkpoints, e.line ≤ st.lineNumber ∧ e.offset ≤ pos

theorem idxStep_inv (stride : Nat) (st : IdxState) (pos b : Nat)
    (h : IdxInv st pos) : IdxInv (idxStep stride st pos b) (pos + 1) := by
  obtain ⟨hhead, hchain, hbound⟩ := h
  unfold idxStep
  by_cases hb : b = 10
  · rw [if_pos hb]
    by_cases hs : stride ≤ st.lineNumber + 1 - st.lastStoredLine
    · rw [if_pos hs]
      refine ⟨?_, ?_, ?_⟩
      · cases hc : st.checkpoints with
        | nil => rw [hc] at hhead; simp at hhead
        | cons c cs =>
          rw [hc] at hhead
          simpa using hhead
      · rw [List.chain'_append]
        refine ⟨hchain, List.chain'_singleton _, ?_⟩
        intro x hx y hy
        have hxm : x ∈ st.checkpoints := mem_of_getLast?_eq _ _ hx
        have := hbound x hxm
        simp only [List.head?_cons, Option.mem_def, Option.some_inj] at hy
        subst hy
        refine ⟨?_, ?_⟩ <;> dsimp only <;> omega
      · intro e he
        dsimp only at he
        rcases List.mem_append.mp he with h1 | h1
        · have := hbound e h1
          refine ⟨?_, ?_⟩ <;> dsimp only <;> omega
        · simp only [List.mem_singleton] at h1
          subst h1
          refine ⟨?_, ?_⟩ <;> dsimp only <;> omega
    · rw [if_neg hs]
      refine ⟨hhead, hchain, ?_⟩
      intro e he
      dsimp only at he
      have := hbound e he
      refine ⟨?_, ?_⟩ <;> dsimp only <;> omega
  · rw [if_neg hb]
    refine ⟨hhead, hchain, ?_⟩
    intro e he
    have := hbound e he
    exact ⟨this.1, by omega⟩

theorem idxScanFrom_inv (stride : Nat) :
    ∀ (bytes : Bytes) (st : IdxState) (pos : Nat), IdxInv st pos →
      IdxInv (idxScanFrom stride st pos bytes) (pos + bytes.length) := by
  intro bytes
  induction bytes with
  | nil => intro st pos h; simpa using h
  | cons b rest ih =>
    intro st pos h
    have := ih (idxStep stride st pos b) (pos + 1) (idxStep_inv stride st pos b h)
    simpa [idxScanFrom, Nat.add_assoc, Nat.add_comm 1 rest.length] using this

theorem idxInit_inv : IdxInv idxInit 0 := by
  refine ⟨rfl, List.chain'_singleton _, ?_⟩
  intro e he
  simp only [idxInit, List.mem_singleton] at he
  subst he
  exact ⟨le_refl _, le_refl _⟩

theorem idxStateAfter_inv (F : Bytes) (stride k : Nat) :
    IdxInv (idxStateAfter F stride k) (F.take k).length := by
  unfold idxStateAfter
  have := idxScanFrom_inv stride (F.take k) idxInit 0 idxInit_inv
  simpa using this

theorem idxScanFrom_append (stride : Nat) :
    ∀ (xs ys : Bytes) (st : IdxState) (pos : Nat),
      idxScanFrom stride st pos (xs ++ ys)
        = idxScanFrom stride (idxScanFrom stride st pos xs) (pos + xs.length) ys := by
  intro xs
  induction xs with
  | nil => intro ys st pos; simp [idxScanFrom]
  | cons b rest ih =>
    intro ys st pos
    simp only [List.cons_append, idxScanFrom]
    rw [List.append_eq, ih]
    congr 1
    simp
    omega

theorem idxStateAfter_succ (F : Bytes) (stride k : Nat) (h : k < F.length) :
    idxStateAfter F stride (k + 1)
      = idxStep stride (idxStateAfter F stride k) k (F.getD k 0) := by
  unfold idxStateAfter
  rw [List.take_succ, List.getElem?_eq_getElem h]
  simp only [Option.toList_some]
  rw [idxScanFrom_append]
  have hlen : (F.take k).length = k := by
    rw [List.length_take]
    omega
  rw [hlen]
  have hget : F.getD k 0 = F[k] := List.getD_eq_getElem F 0 h
  rw [hget, Nat.zero_add]
  rfl

theorem idxStateAfter_stable (F : Bytes) (stride k : Nat) (h : F.length ≤ k) :
    idxStateAfter F stride k = idxStateAfter F stride F.length := by
  unfold idxStateAfter
  rw [List.take_of_length_le h, List.take_of_length_le (le_refl _)]

/-- A checkpoint is exact for file `F`: its offset is where its (1-based)
line starts. -/
def checkpointExact (F : Bytes) (e : SparseIndexEntry) : Prop :=
  1 ≤ e.line ∧ e.line ≤ (splitNl F).length ∧
    e.offset = startOfLine (splitNl F) (e.line - 1)

/-- Exactness invariant of the scan after `k` bytes. -/
def IdxExact (F : Bytes) (st : IdxState) (k : Nat) : Prop :=
  st.lineNumber = (F.take k).count 10 + 1 ∧
  ∀ e ∈ st.checkpoints, checkpointExact F e

theorem idxStateAfter_exact (F : Bytes) (stride : Nat) :
    ∀ k, IdxExact F (idxStateAfter F stride k) (min k F.length) := by
  intro k
  induction k with
  | zero =>
    refine ⟨by simp [idxStateAfter, idxScanFrom, idxInit], ?_⟩
    intro e he
    simp only [idxStateAfter, List.take_zero, idxScanFrom, idxInit, List.mem_singleton] at he
    subst he
    refine ⟨le_refl _, ?_, rfl⟩
    have := splitNl_ne_nil F
    cases hs : splitNl F with
    | nil => exact absurd hs this
    | cons a as => simp
  | succ k ih =>
    by_cases hk : k < F.length
    · obtain ⟨hln, hcp⟩ := ih
      have hmin : min k F.length = k := by omega
      have hmin1 : min (k + 1) F.length = k + 1 := by omega
      rw [hmin] at hln
      rw [hmin1, idxStateAfter_succ F stride k hk]
      set st := idxStateAfter F stride k with hst
      have htake : F.take (k + 1) = F.take k ++ [F.getD k 0] := by
        rw [List.take_succ, List.getElem?_eq_getElem hk, List.getD_eq_getElem F 0 hk]
        rfl
      unfold idxStep
      by_cases hb : F.getD k 0 = 10
      · rw [if_pos hb]
        have hcount : (F.take (k + 1)).count 10 = (F.take k).count 10 + 1 := by
          rw [htake, List.count_append, hb]
          simp
        by_cases hs : stride ≤ st.lineNumber + 1 - st.lastStoredLine
        · rw [if_pos hs]
          refine ⟨by simp [hcount, hln], ?_⟩
          intro e he
          rcases List.mem_append.mp he with h1 | h1
          · exact hcp e h1
          · simp only [List.mem_singleton] at h1
            subst h1
            -- the pushed checkpoint ⟨lineNumber+1, k+1⟩ is exact
            have hxs : F = F.take k ++ 10 :: F.drop (k + 1) := by
              conv_lhs => rw [← List.take_append_drop k F]
              congr 1
              rw [List.drop_eq_getElem_cons hk]
              rw [← hb, List.getD_eq_getElem F 0 hk]
            have hsplit : splitNl F = splitNl (F.take k) ++ splitNl (F.drop (k + 1)) := by
              conv_lhs => rw [hxs]
              exact splitNl_append_nl _ _
            have hlenxs : (F.take k).length = k := by
              rw [List.length_take]; omega
            have hlenA : (splitNl (F.take k)).length = (F.take k).count 10 + 1 :=
              splitNl_length _
            refine ⟨by dsimp only; omega, ?_, ?_⟩
            · dsimp only
              rw [hsplit, List.length_append]
              have := splitNl_ne_nil (F.drop (k + 1))
              have hpos : 0 < (splitNl (F.drop (k + 1))).length := by
                cases hs2 : splitNl (F.drop (k + 1)) with
                | nil => exact absurd hs2 this
                | cons a as => simp
              omega
            · dsimp only
              have hidx : st.lineNumber + 1 - 1 = (splitNl (F.take k)).length := by
                omega
              rw [hidx, hsplit]
              unfold startOfLine
              rw [List.take_left]
              rw [lineSpan_splitNl, hlenxs]
        · rw [if_neg hs]
          exact ⟨by simp [hcount, hln], hcp⟩
      · rw [if_neg hb]
        have hcount : (F.take (k + 1)).count 10 = (F.take k).count 10 := by
          rw [htake, List.count_append, List.count_cons]
          simp only [List.count_nil, beq_iff_eq]
          rw [if_neg hb]
          omega
        exact ⟨by simp [hcount, hln], hcp⟩
    · have h1 : F.length ≤ k := by omega
      rw [idxStateAfter_stable F stride (k + 1) (by omega),
        ← idxStateAfter_stable F stride k h1]
      have hmin : min (k + 1) F.length = min k F.length := by omega
      rw [hmin]
      exact ih

/-! ### Binary search correctness (`getNearestOffset`) -/

/-- `line` of the `i`-th checkpoint, with the source's default. -/
def lineAt (l : List SparseIndexEntry) (i : Nat) : Nat :=
  (l.getD i ⟨1, 0⟩).line

theorem bsGo_spec (l : List SparseIndexEntry) (target : Int)
    (hsort : ∀ i j, i < j → j < l.length → lineAt l i < lineAt l j)
    (hlen0 : 0 < l.length) :
    ∀ (fuel low hi1 : Nat), hi1 ≤ l.length → low ≤ hi1 → hi1 - low < fuel →
      (∀ i, i < low → ((lineAt l i : Int) ≤ target)) →
      (∀ i, hi1 ≤ i → i < l.length → target < (lineAt l i : Int)) →
      bsGo l target fuel low hi1 < l.length ∧
      ((∀ j, j < l.length → target < (lineAt l j : Int)) → bsGo l target fuel low hi1 = 0) ∧
      (∀ j, j < l.length → (lineAt l j : Int) ≤ target →
        j ≤ bsGo l target fuel low hi1 ∧ (lineAt l (bsGo l target fuel low hi1) : Int) ≤ target) := by
  intro fuel
  induction fuel with
  | zero =>
    intro low hi1 _ _ hfuel _ _
    omega
  | succ fuel ih =>
    intro low hi1 hhi hlohi hfuel inv2 inv3
    rw [bsGo]
    by_cases hlt : low < hi1
    · rw [if_pos hlt]
      have hmidlo : low ≤ (low + (hi1 - 1)) / 2 := by omega
      have hmidhi : (low + (hi1 - 1)) / 2 < hi1 := by omega
      set mid := (low + (hi1 - 1)) / 2 with hmid
      have hmidlen : mid < l.length := by omega
      by_cases heq : ((l.getD mid ⟨1, 0⟩).line : Int) = target
      · rw [if_pos heq]
        refine ⟨hmidlen, ?_, ?_⟩
        · intro hall
          exact absurd (hall mid hmidlen) (by rw [← heq]; simp [lineAt])
        · intro j hj hjle
          constructor
          · by_contra hc
            have hgt : mid < j := by omega
            have := hsort mid j hgt hj
            have : (lineAt l mid : Int) < lineAt l j := by exact_mod_cast this
            rw [show lineAt l mid = (l.getD mid ⟨1, 0⟩).line from rfl] at this
            omega
          · rw [show lineAt l mid = (l.getD mid ⟨1, 0⟩).line from rfl]
            omega
      · rw [if_neg heq]
        by_cases hlt2 : ((l.getD mid ⟨1, 0⟩).line : Int) < target
        · rw [if_pos hlt2]
          refine ih (mid + 1) hi1 hhi (by omega) (by omega) ?_ inv3
          intro i hi
          rcases Nat.lt_or_ge i mid with h | h
          · have := hsort i mid h hmidlen
            have h2 : (lineAt l i : Int) < lineAt l mid := by exact_mod_cast this
            rw [show lineAt l mid = (l.getD mid ⟨1, 0⟩).line from rfl] at h2
            omega
          · have hieq : i = mid := by omega
            rw [hieq, show lineAt l mid = (l.getD mid ⟨1, 0⟩).line from rfl]
            omega
        · rw [if_neg hlt2]
          refine ih low mid (by omega) (by omega) (by omega) inv2 ?_
          intro i hi hilen
          rcases Nat.lt_or_ge mid i with h | h
          · have := hsort mid i h hilen
            have h2 : (lineAt l mid : Int) < lineAt l i := by exact_mod_cast this
            rw [show lineAt l mid = (l.getD mid ⟨1, 0⟩).line from rfl] at h2
            omega
          · have hieq : i = mid := by omega
            rw [hieq, show lineAt l mid = (l.getD mid ⟨1, 0⟩).line from rfl]
            omega
    · rw [if_neg hlt]
      have hle : low = hi1 := by omega
      rcases Nat.eq_zero_or_pos low with h0 | h0
      · subst h0
        refine ⟨by omega, fun _ => rfl, ?_⟩
        intro j hj hjle
        have := inv3 j (by omega) hj
        omega
      · refine ⟨by omega, ?_, ?_⟩
        · intro hall
          have h1 := inv2 (low - 1) (by omega)
          have h2 := hall (low - 1) (by omega)
          omega
        · intro j hj hjle
          constructor
          · by_contra hc
            have : hi1 ≤ j := by omega
            have := inv3 j this hj
            omega
          · have := inv2 (low - 1) (by omega)
            exact this

theorem bsGo_lt_len (l : List SparseIndexEntry) (target : Int) :
    ∀ (fuel low hi1 : Nat), low ≤ hi1 → hi1 ≤ l.length → 0 < l.length →
      bsGo l target fuel low hi1 < l.length := by
  intro fuel
  induction fuel with
  | zero =>
    intro low hi1 h1 h2 h3
    rw [bsGo]
    omega
  | succ fuel ih =>
    intro low hi1 h1 h2 h3
    rw [bsGo]
    by_cases hlt : low < hi1
    · rw [if_pos hlt]
      have hmidlo : low ≤ (low + (hi1 - 1)) / 2 := by omega
      have hmidhi : (low + (hi1 - 1)) / 2 < hi1 := by omega
      set mid := (low + (hi1 - 1)) / 2 with hmid
      by_cases heq : ((l.getD mid ⟨1, 0⟩).line : Int) = target
      · rw [if_pos heq]
        omega
      · rw [if_neg heq]
        by_cases hlt2 : ((l.getD mid ⟨1, 0⟩).line : Int) < target
        · rw [if_pos hlt2]
          exact ih (mid + 1) hi1 (by omega) h2 h3
        · rw [if_neg hlt2]
          exact ih low mid (by omega) (by omega) h3
    · rw [if_neg hlt]
      omega

theorem getNearestOffset_mem (idx : List SparseIndexEntry) (target : Int)
    (hne : idx ≠ []) : getNearestOffset idx target ∈ idx := by
  have hlen : 0 < idx.length := by
    cases idx with
    | nil => exact absurd rfl hne
    | cons a as => simp
  unfold getNearestOffset
  rw [if_neg (by omega)]
  have hr : bsGo idx target (idx.length + 1) 0 idx.length < idx.length :=
    bsGo_lt_len idx target (idx.length + 1) 0 idx.length (by omega) (le_refl _) hlen
  rw [List.getD_eq_getElem idx ⟨1, 0⟩ hr]
  exact List.getElem_mem _

theorem getNearestOffset_spec (idx : List SparseIndexEntry) (target : Int)
    (hsort : ∀ i j, i < j → j < idx.length → lineAt idx i < lineAt idx j)
    (hne : idx ≠ []) :
    ((∀ e ∈ idx, target < (e.line : Int)) →
      getNearestOffset idx target = idx.headD ⟨1, 0⟩) ∧
    (∀ e ∈ idx, (e.line : Int) ≤ target →
      ((getNearestOffset idx target).line : Int) ≤ target ∧
        e.line ≤ (getNearestOffset idx target).line) := by
  have hlen : 0 < idx.length := by
    cases idx with
    | nil => exact absurd rfl hne
    | cons a as => simp
  have hspec := bsGo_spec idx target hsort hlen (idx.length + 1) 0 idx.length
    (le_refl _) (by omega) (by omega) (by omega) (by intro i h1 h2; omega)
  set r := bsGo idx target (idx.length + 1) 0 idx.length with hrdef
  obtain ⟨hrlen, hall0, hlast⟩ := hspec
  have hres : getNearestOffset idx target = idx.getD r ⟨1, 0⟩ := by
    unfold getNearestOffset
    rw [if_neg (by omega)]
  constructor
  · intro hall
    have h0 : r = 0 := by
      refine hall0 ?_
      intro j hj
      have hmem : idx.getD j ⟨1, 0⟩ ∈ idx := by
        rw [List.getD_eq_getElem idx ⟨1, 0⟩ hj]
        exact List.getElem_mem _
      exact hall _ hmem
    rw [hres, h0]
    cases idx with
    | nil => rfl
    | cons a as => rfl
  · intro e hmem hle
    obtain ⟨j, hj, hje⟩ := List.mem_iff_getElem.mp hmem
    have hlineAt : lineAt idx j = e.line := by
      unfold lineAt
      rw [List.getD_eq_getElem idx ⟨1, 0⟩ hj, hje]
    obtain ⟨hjr, hrle⟩ := hlast j hj (by rw [hlineAt]; exact hle)
    refine ⟨by rw [hres]; exact hrle, ?_⟩
    rw [hres]
    rcases Nat.lt_or_ge j r with h | h
    · have := hsort j r h hrlen
      rw [hlineAt] at this
      unfold lineAt at this
      omega
    · have : j = r := by omega
      rw [← this, ← hje]
      rw [List.getD_eq_getElem idx ⟨1, 0⟩ hj]

instance : IsTrans SparseIndexEntry cpMono :=
  ⟨fun _ _ _ hab hbc => ⟨lt_trans hab.1 hbc.1, lt_trans hab.2 hbc.2⟩⟩

/-- Bridge: on any indexer state reachable for file `F`, the nearest
checkpoint for a target line `≥ 1` is exact and does not overshoot the
target. -/
theorem getNearestOffset_exact (F : Bytes) (stride k : Nat) (target : Int)
    (h1 : 1 ≤ target) :
    checkpointExact F (getNearestOffset (idxStateAfter F stride k).checkpoints target) ∧
      ((getNearestOffset (idxStateAfter F stride k).checkpoints target).line : Int) ≤ target := by
  obtain ⟨hhead, hchain, _⟩ := idxStateAfter_inv F stride k
  obtain ⟨_, hexact⟩ := idxStateAfter_exact F stride k
  set idx := (idxStateAfter F stride k).checkpoints with hidx
  have hne : idx ≠ [] := by
    intro he
    rw [he] at hhead
    simp at hhead
  have hpw : List.Pairwise cpMono idx := List.chain'_iff_pairwise.mp hchain
  have hsort : ∀ i j, i < j → j < idx.length → lineAt idx i < lineAt idx j := by
    intro i j hij hj
    have hi : i < idx.length := by omega
    have := List.pairwise_iff_get.mp hpw ⟨i, hi⟩ ⟨j, hj⟩ hij
    unfold lineAt
    rw [List.getD_eq_getElem idx ⟨1, 0⟩ hi, List.getD_eq_getElem idx ⟨1, 0⟩ hj]
    exact this.1
  have hseed : (⟨1, 0⟩ : SparseIndexEntry) ∈ idx :=
    List.mem_of_mem_head? (by rw [hhead]; rfl)
  obtain ⟨_, hspec2⟩ := getNearestOffset_spec idx target hsort hne
  have hres := hspec2 ⟨1, 0⟩ hseed (by simpa using h1)
  exact ⟨hexact _ (getNearestOffset_mem idx target hne), hres.1⟩

/-! ### Page reader on single-window files -/

/-- The records the reader produces for consecutive lines numbered from
`ℓ` (always with byte offset 0, as the source does). -/
def recordsFrom (ℓ : Nat) : List Bytes → List JsonlLine
  | [] => []
  | raw :: rest => parseLine raw ℓ 0 :: recordsFrom (ℓ + 1) rest

theorem parseLine_raw (raw : Bytes) (ℓ off : Nat) :
    (parseLine raw ℓ off).raw = stripCR raw := by
  unfold parseLine decodeLine
  split_ifs <;> rfl

theorem parseLine_lineNumber (raw : Bytes) (ℓ off : Nat) :
    (parseLine raw ℓ off).lineNumber = ℓ := by
  unfold parseLine decodeLine
  split_ifs <;> rfl

theorem parseLine_byteOffset (raw : Bytes) (ℓ off : Nat) :
    (parseLine raw ℓ off).byteOffset = off := by
  unfold parseLine decodeLine
  split_ifs <;> rfl

theorem recordsFrom_raw (ℓ : Nat) (ls : List Bytes) :
    (recordsFrom ℓ ls).map (fun r => r.raw) = ls.map stripCR := by
  induction ls generalizing ℓ with
  | nil => rfl
  | cons raw rest ih =>
    simp only [recordsFrom, List.map_cons, ih, parseLine_raw]

theorem emitLines_skip (s : Int) (c : Nat) :
    ∀ (n : Nat) (ls : List Bytes) (ℓ : Nat) (acc : List JsonlLine),
      acc.length < c → (∀ i, i < n → ((ℓ + i : Nat) : Int) < s) →
      (emitLines s c ls ℓ acc).2 = (emitLines s c (ls.drop n) (ℓ + n) acc).2 := by
  intro n
  induction n with
  | zero => intro ls ℓ acc _ _; rfl
  | succ n ih =>
    intro ls ℓ acc hacc hlt
    cases ls with
    | nil => simp [emitLines]
    | cons raw rest =>
      have h0 : ((ℓ : Int) < s) := by
        have := hlt 0 (by omega)
        simpa using this
      rw [emitLines]
      rw [if_neg (show ¬ s ≤ (ℓ : Int) by omega)]
      rw [if_neg (show ¬ c ≤ acc.length by omega)]
      have := ih rest (ℓ + 1) acc hacc (by
        intro i hi
        have := hlt (i + 1) (by omega)
        have h2 : ℓ + 1 + i = ℓ + (i + 1) := by omega
        rw [h2]
        exact this)
      rw [this, List.drop_succ_cons]
      have h3 : ℓ + 1 + n = ℓ + (n + 1) := by omega
      rw [h3]

theorem emitLines_emit (s : Int) (c : Nat) :
    ∀ (ls : List Bytes) (ℓ : Nat) (acc : List JsonlLine),
      s ≤ (ℓ : Int) → acc.length < c →
      (emitLines s c ls ℓ acc).2 = acc ++ recordsFrom ℓ (ls.take (c - acc.length)) := by
  intro ls
  induction ls with
  | nil => intro ℓ acc _ _; simp [emitLines, recordsFrom]
  | cons raw rest ih =>
    intro ℓ acc hs hacc
    rw [emitLines, if_pos hs]
    by_cases hcap : c ≤ (acc ++ [parseLine raw ℓ 0]).length
    · rw [if_pos hcap]
      have hc1 : c - acc.length = 1 := by
        simp only [List.length_append, List.length_singleton] at hcap
        omega
      rw [hc1]
      simp [recordsFrom]
    · rw [if_neg hcap]
      have hlen : (acc ++ [parseLine raw ℓ 0]).length = acc.length + 1 := by simp
      rw [ih (ℓ + 1) _ (by omega) (by omega)]
      have htake : (raw :: rest).take (c - acc.length)
          = raw :: rest.take (c - (acc.length + 1)) := by
        have : c - acc.length = (c - (acc.length + 1)) + 1 := by
          simp only [List.length_append, List.length_singleton] at hcap
          omega
        rw [this, List.take_succ_cons]
      rw [htake, hlen]
      simp [recordsFrom]

theorem readLoop_at_eof (F : Bytes) (s : Int) (c : Nat) (fuel : Nat)
    (st : ReadState) (h : F.length ≤ st.fileOffset) :
    readLoop F s c fuel st = st := by
  cases fuel with
  | zero => rfl
  | succ fuel =>
    rw [readLoop]
    by_cases hc : c ≤ st.result.length
    · rw [if_pos hc]
    · rw [if_neg hc]
      simp [show F.length - st.fileOffset = 0 by omega]

theorem readLoop_step (F : Bytes) (s : Int) (c : Nat) (fuel : Nat)
    (ln0 off0 : Nat) (res0 : List JsonlLine)
    (hres : res0.length < c) (hoff : off0 < F.length)
    (hbuf : F.length ≤ PAGE_BUFFER_SIZE) :
    readLoop F s c (fuel + 1) ⟨ln0, off0, [], res0⟩ =
      readLoop F s c fuel
        ⟨(emitLines s c (splitNl (F.drop off0)) ln0 res0).1, F.length, [],
          (emitLines s c (splitNl (F.drop off0)) ln0 res0).2⟩ := by
  rw [readLoop]
  dsimp only
  rw [if_neg (show ¬ c ≤ res0.length by omega)]
  rw [show min PAGE_BUFFER_SIZE (F.length - off0) = F.length - off0 by omega]
  rw [if_neg (show ¬ (F.length - off0 = 0) by omega)]
  rw [List.nil_append]
  rw [show (F.drop off0).take (F.length - off0) = F.drop off0 by
    rw [show F.length - off0 = (F.drop off0).length by simp, List.take_length]]
  simp only [if_pos (show F.length ≤ off0 + (F.length - off0) by omega)]
  simp only [List.length_nil, Nat.sub_zero,
    show off0 + (F.length - off0) = F.length by omega]

theorem readLines_singleChunk (F : Bytes) (hlen : F.length ≤ PAGE_BUFFER_SIZE)
    (ℓ o sN c : Nat) (hc : 1 ≤ c) (hℓ1 : 1 ≤ ℓ) (hℓs : ℓ ≤ sN)
    (hℓL : ℓ ≤ (splitNl F).length)
    (ho : o = startOfLine (splitNl F) (ℓ - 1)) (holt : o < F.length) :
    readLinesFromOffset F ⟨ℓ, o⟩ (sN : Int) c
      = recordsFrom sN (((splitNl F).drop (sN - 1)).take c) := by
  have hoL : o ≤ F.length := by omega
  have hbr : min PAGE_BUFFER_SIZE (F.length - o) = F.length - o := by
    have h1 : F.length - o ≤ PAGE_BUFFER_SIZE := by omega
    omega
  have hidx : ℓ - 1 < (splitNl F).length := by omega
  have hchunk : (F.drop o).take (F.length - o) = F.drop o := by
    have h1 : (F.drop o).length = F.length - o := by simp
    rw [← h1, List.take_length]
  have hsplitchunk : splitNl (F.drop o) = (splitNl F).drop (ℓ - 1) := by
    rw [ho]
    exact splitNl_drop F (ℓ - 1) hidx
  have hres : (emitLines (sN : Int) c ((splitNl F).drop (ℓ - 1)) ℓ []).2
      = recordsFrom sN (((splitNl F).drop (sN - 1)).take c) := by
    rw [emitLines_skip (sN : Int) c (sN - ℓ) _ ℓ [] (by simpa using hc) (by
      intro i hi
      have : ℓ + i < sN := by omega
      exact_mod_cast this)]
    have hℓn : ℓ + (sN - ℓ) = sN := by omega
    rw [hℓn, List.drop_drop]
    have hdd : sN - ℓ + (ℓ - 1) = sN - 1 := by omega
    have hdd2 : ℓ - 1 + (sN - ℓ) = sN - 1 := by omega
    first
    | rw [hdd]
    | rw [hdd2]
    rw [emitLines_emit (sN : Int) c _ sN [] (le_refl _) (by simpa using hc)]
    simp
  unfold readLinesFromOffset
  have hfuel : F.length + 2 = (F.length + 1) + 1 := rfl
  rw [hfuel]
  rw [readLoop_step F (sN : Int) c (F.length + 1) ℓ o [] (by simpa using hc) holt hlen]
  rw [readLoop_at_eof F _ c (F.length + 1) _ (by dsimp only; omega)]
  dsimp only
  rw [hsplitchunk, hres]
  simp

theorem join_chunks {α : Type} (n : Nat) :
    ∀ (P : Nat) (lines : List α), lines.length ≤ P * n →
      ((List.range P).map (fun q => (lines.drop (q * n)).take n)).flatten = lines := by
  intro P
  induction P with
  | zero =>
    intro lines hP
    have : lines = [] := by
      cases lines with
      | nil => rfl
      | cons a as => simp at hP
    subst this
    rfl
  | succ P ih =>
    intro lines hP
    rw [List.range_succ_eq_map]
    rw [List.map_cons, List.map_map, List.flatten_cons]
    have hmap : (List.range P).map ((fun q => (lines.drop (q * n)).take n) ∘ (· + 1))
        = (List.range P).map (fun q => ((lines.drop n).drop (q * n)).take n) := by
      refine List.map_congr_left ?_
      intro q _
      simp only [Function.comp]
      rw [List.drop_drop]
      congr 1
      ring_nf
    rw [hmap, ih (lines.drop n) (by
      rw [List.length_drop]
      have : (P + 1) * n = P * n + n := by ring
      omega)]
    simp

/-- `readPage` computes its records through `readLinesFromOffset` on the
nearest checkpoint; the pagination metadata does not influence them. -/
theorem readPage_lines (F : Bytes) (idx : List SparseIndexEntry)
    (exactTotal : Option Nat) (pageSize : Nat) (page : Int) :
    (readPage F idx exactTotal pageSize page).lines
      = readLinesFromOffset F (getNearestOffset idx ((page - 1) * pageSize + 1))
          ((page - 1) * pageSize + 1) pageSize := rfl

/-- One page of a small file, read against any indexer state reachable
for that file, returns exactly its slice of the split lines. -/
theorem readPage_slice (F : Bytes) (stride k n q : Nat) (t? : Option Nat)
    (hne : F ≠ []) (hlen : F.length ≤ PAGE_BUFFER_SIZE)
    (hlast : F.getLast? ≠ some 10) (hn : 1 ≤ n) :
    (readPage F (idxStateAfter F stride k).checkpoints t? n ((q + 1 : Nat) : Int)).lines
      = recordsFrom (q * n + 1) (((splitNl F).drop (q * n)).take n) := by
  have htarget : (((q + 1 : Nat) : Int) - 1) * (n : Int) + 1 = ((q * n + 1 : Nat) : Int) := by
    push_cast
    ring
  rw [readPage_lines, htarget]
  obtain ⟨hexact, hle⟩ := getNearestOffset_exact F stride k ((q * n + 1 : Nat) : Int)
    (by exact_mod_cast Nat.le_add_left 1 (q * n))
  set cp := getNearestOffset (idxStateAfter F stride k).checkpoints ((q * n + 1 : Nat) : Int)
    with hcp
  obtain ⟨hℓ1, hℓL, ho⟩ := hexact
  have hℓs : cp.line ≤ q * n + 1 := by exact_mod_cast hle
  have holt : cp.offset < F.length := by
    rw [ho]
    exact startOfLine_lt F hne hlast (cp.line - 1) (by omega)
  have := readLines_singleChunk F hlen cp.line cp.offset (q * n + 1) n hn hℓ1 hℓs hℓL ho holt
  have hcpeta : (⟨cp.line, cp.offset⟩ : SparseIndexEntry) = cp := rfl
  rw [hcpeta] at this
  rw [this, show q * n + 1 - 1 = q * n by omega]

/-! ### Search loop lemmas -/

theorem decodeLine_byteOffset (raw : Bytes) (ℓ off : Nat) :
    (decodeLine raw ℓ off).byteOffset = off := by
  unfold decodeLine
  split_ifs <;> rfl

theorem decodeLine_lineNumber (raw : Bytes) (ℓ off : Nat) :
    (decodeLine raw ℓ off).lineNumber = ℓ := by
  unfold decodeLine
  split_ifs <;> rfl

/-- The number of lines the literal matcher accepts. -/
def matchCount (opts : SearchOptions) (ls : List Bytes) : Nat :=
  (ls.filter (fun l => matcherAccepts opts.caseSensitive opts.query l)).length

theorem searchGo_length_of_le (opts : SearchOptions) :
    ∀ (ls : List Bytes) (ln off : Nat) (acc : List JsonlLine),
      acc.length < opts.maxResults →
      matchCount opts ls + acc.length ≤ opts.maxResults →
      (searchGo opts ls ln off acc).1.length = acc.length + matchCount opts ls := by
  intro ls
  induction ls with
  | nil =>
    intro ln off acc _ _
    simp [searchGo, matchCount]
  | cons raw rest ih =>
    intro ln off acc hacc hK
    rw [searchGo]
    by_cases hm : matcherAccepts opts.caseSensitive opts.query raw
    · rw [if_pos hm]
      have hKc : matchCount opts (raw :: rest) = matchCount opts rest + 1 := by
        unfold matchCount
        rw [List.filter_cons, if_pos hm]
        simp
      by_cases hcap : opts.maxResults ≤ (acc ++ [decodeLine raw (ln + 1) off]).length
      · rw [if_pos hcap]
        simp only [List.length_append, List.length_singleton] at hcap ⊢
        omega
      · rw [if_neg hcap]
        simp only [List.length_append, List.length_singleton] at hcap
        rw [ih _ _ _ (by simp; omega) (by simp; omega)]
        simp only [List.length_append, List.length_singleton]
        omega
    · rw [if_neg hm]
      have hKc : matchCount opts (raw :: rest) = matchCount opts rest := by
        unfold matchCount
        rw [List.filter_cons, if_neg hm]
      rw [ih _ _ _ hacc (by omega)]
      omega

theorem searchGo_capped (opts : SearchOptions) :
    ∀ (ls : List Bytes) (ln off : Nat) (acc : List JsonlLine),
      acc.length < opts.maxResults →
      opts.maxResults < matchCount opts ls + acc.length →
      (searchGo opts ls ln off acc).1.length = opts.maxResults ∧
        (searchGo opts ls ln off acc).2 ≠ [] := by
  intro ls
  induction ls with
  | nil =>
    intro ln off acc hacc hK
    unfold matchCount at hK
    simp at hK
    omega
  | cons raw rest ih =>
    intro ln off acc hacc hK
    rw [searchGo]
    by_cases hm : matcherAccepts opts.caseSensitive opts.query raw
    · rw [if_pos hm]
      have hKc : matchCount opts (raw :: rest) = matchCount opts rest + 1 := by
        unfold matchCount
        rw [List.filter_cons, if_pos hm]
        simp
      by_cases hcap : opts.maxResults ≤ (acc ++ [decodeLine raw (ln + 1) off]).length
      · rw [if_pos hcap]
        simp only [List.length_append, List.length_singleton] at hcap ⊢
        constructor
        · omega
        · -- more matches remain, so at least one more line remains
          intro he
          subst he
          unfold matchCount at hK hKc
          simp at hKc
          omega
      · rw [if_neg hcap]
        simp only [List.length_append, List.length_singleton] at hcap
        exact ih _ _ _ (by simp; omega) (by simp; omega)
    · rw [if_neg hm]
      have hKc : matchCount opts (raw :: rest) = matchCount opts rest := by
        unfold matchCount
        rw [List.filter_cons, if_neg hm]
      exact ih _ _ _ hacc (by omega)

theorem searchGo_rest_nil (opts : SearchOptions) :
    ∀ (ls : List Bytes) (ln off : Nat) (acc : List JsonlLine),
      acc.length + matchCount opts ls < opts.maxResults →
      (searchGo opts ls ln off acc).2 = [] := by
  intro ls
  induction ls with
  | nil => intro ln off acc _; rfl
  | cons raw rest ih =>
    intro ln off acc hK
    rw [searchGo]
    by_cases hm : matcherAccepts opts.caseSensitive opts.query raw
    · rw [if_pos hm]
      have hKc : matchCount opts (raw :: rest) = matchCount opts rest + 1 := by
        unfold matchCount
        rw [List.filter_cons, if_pos hm]
        simp
      rw [if_neg (by simp; omega)]
      exact ih _ _ _ (by simp; omega)
    · rw [if_neg hm]
      have hKc : matchCount opts (raw :: rest) = matchCount opts rest := by
        unfold matchCount
        rw [List.filter_cons, if_neg hm]
      exact ih _ _ _ (by omega)

theorem searchGo_maxZero (opts : SearchOptions) (h0 : opts.maxResults = 0) :
    ∀ (ls : List Bytes) (ln off : Nat),
      (ls.filter (fun l => matcherAccepts opts.caseSensitive opts.query l)) ≠ [] →
      (searchGo opts ls ln off []).1.length = 1 := by
  intro ls
  induction ls with
  | nil => intro ln off h; simp at h
  | cons raw rest ih =>
    intro ln off hne
    rw [searchGo]
    by_cases hm : matcherAccepts opts.caseSensitive opts.query raw
    · rw [if_pos hm, if_pos (by simp [h0])]
      simp
    · rw [if_neg hm]
      refine ih _ _ ?_
      rw [List.filter_cons, if_neg hm] at hne
      exact hne

theorem searchGo_offsets (opts : SearchOptions) (lines0 : List Bytes) :
    ∀ (ls : List Bytes) (ln off : Nat) (acc : List JsonlLine),
      lines0.drop ln = ls → off = startOfLine lines0 ln →
      (∀ r ∈ acc, r.byteOffset = startOfLine lines0 (r.lineNumber - 1) ∧
        1 ≤ r.lineNumber ∧ r.lineNumber ≤ lines0.length) →
      ∀ r ∈ (searchGo opts ls ln off acc).1,
        r.byteOffset = startOfLine lines0 (r.lineNumber - 1) ∧
          1 ≤ r.lineNumber ∧ r.lineNumber ≤ lines0.length := by
  intro ls
  induction ls with
  | nil =>
    intro ln off acc _ _ hacc
    simpa [searchGo] using hacc
  | cons raw rest ih =>
    intro ln off acc hdrop hoff hacc
    have hln : ln < lines0.length := by
      by_contra hc
      rw [List.drop_eq_nil_of_le (by omega)] at hdrop
      exact List.cons_ne_nil _ _ hdrop.symm
    have hcons : raw :: rest = lines0[ln] :: lines0.drop (ln + 1) := by
      rw [← hdrop]
      exact List.drop_eq_getElem_cons hln
    obtain ⟨h1, h2⟩ := List.cons_eq_cons.mp hcons
    have hoff1 : off + raw.length + 1 = startOfLine lines0 (ln + 1) := by
      rw [startOfLine_succ lines0 ln hln, ← hoff,
        List.getD_eq_getElem lines0 [] hln, ← h1]
    have hrec : ∀ r ∈ acc ++ [decodeLine raw (ln + 1) off],
        r.byteOffset = startOfLine lines0 (r.lineNumber - 1) ∧
          1 ≤ r.lineNumber ∧ r.lineNumber ≤ lines0.length := by
      intro r hr
      rcases List.mem_append.mp hr with h | h
      · exact hacc r h
      · simp only [List.mem_singleton] at h
        subst h
        rw [decodeLine_byteOffset, decodeLine_lineNumber]
        refine ⟨?_, by omega, by omega⟩
        rw [show ln + 1 - 1 = ln by omega]
        exact hoff
    rw [searchGo]
    by_cases hm : matcherAccepts opts.caseSensitive opts.query raw
    · rw [if_pos hm]
      by_cases hcap : opts.maxResults ≤ (acc ++ [decodeLine raw (ln + 1) off]).length
      · rw [if_pos hcap]
        exact hrec
      · rw [if_neg hcap]
        exact ih (ln + 1) _ _ h2.symm hoff1 hrec
    · rw [if_neg hm]
      exact ih (ln + 1) _ _ h2.symm hoff1 hacc

/-! ### The reader's byte offsets are always zero -/

theorem emitLines_offset_zero (s : Int) (c : Nat) :
    ∀ (ls : List Bytes) (ℓ : Nat) (acc : List JsonlLine),
      (∀ r ∈ acc, r.byteOffset = 0) →
      ∀ r ∈ (emitLines s c ls ℓ acc).2, r.byteOffset = 0 := by
  intro ls
  induction ls with
  | nil => intro ℓ acc hacc; simpa [emitLines] using hacc
  | cons raw rest ih =>
    intro ℓ acc hacc
    have hacc2 : ∀ r ∈ (if s ≤ (ℓ : Int) then acc ++ [parseLine raw ℓ 0] else acc),
        r.byteOffset = 0 := by
      intro r hr
      by_cases hsl : s ≤ (ℓ : Int)
      · rw [if_pos hsl] at hr
        rcases List.mem_append.mp hr with h | h
        · exact hacc r h
        · simp only [List.mem_singleton] at h
          subst h
          exact parseLine_byteOffset raw ℓ 0
      · rw [if_neg hsl] at hr
        exact hacc r hr
    rw [emitLines]
    by_cases hcap : c ≤ (if s ≤ (ℓ : Int) then acc ++ [parseLine raw ℓ 0] else acc).length
    · rw [if_pos hcap]
      exact hacc2
    · rw [if_neg hcap]
      exact ih (ℓ + 1) _ hacc2

theorem readLoop_offset_zero (F : Bytes) (s : Int) (c : Nat) :
    ∀ (fuel : Nat) (st : ReadState), (∀ r ∈ st.result, r.byteOffset = 0) →
      ∀ r ∈ (readLoop F s c fuel st).result, r.byteOffset = 0 := by
  intro fuel
  induction fuel with
  | zero => intro st h; simpa [readLoop] using h
  | succ fuel ih =>
    intro st h
    rw [readLoop]
    dsimp only
    split
    · exact h
    · split
      · exact h
      · rcases hemit : emitLines s c
          (if F.length ≤ st.fileOffset + min PAGE_BUFFER_SIZE (F.length - st.fileOffset)
            then splitNl (st.leftovers ++
              (F.drop st.fileOffset).take (min PAGE_BUFFER_SIZE (F.length - st.fileOffset)))
            else (splitNl (st.leftovers ++
              (F.drop st.fileOffset).take (min PAGE_BUFFER_SIZE (F.length - st.fileOffset)))).dropLast)
          st.currentLineNum st.result with ⟨ln, res⟩
        dsimp only
        refine ih _ ?_
        intro r hr
        have hres : (emitLines s c _ st.currentLineNum st.result).2 = res :=
          congrArg Prod.snd hemit
        exact emitLines_offset_zero s c _ st.currentLineNum st.result h r (by
          rw [hres]
          exact hr)

theorem readLinesFromOffset_offset_zero (F : Bytes) (cp : SparseIndexEntry)
    (s : Int) (c : Nat) :
    ∀ r ∈ readLinesFromOffset F cp s c, r.byteOffset = 0 := by
  unfold readLinesFromOffset
  have hloop := readLoop_offset_zero F s c (F.length + 2)
    ⟨cp.line, cp.offset, [], []⟩ (by intro r hr; simp at hr)
  dsimp only
  split
  · intro r hr
    rcases List.mem_append.mp hr with h | h
    · exact hloop r h
    · simp only [List.mem_singleton] at h
      subst h
      exact parseLine_byteOffset _ _ _
  · exact hloop

/-! ## Claim theorems -/

/-- C1 (counterexample): on the two-byte file `"a\n"`, fully indexed
(`totalLines = 2` is recorded) and paged with `pageSize = 1`, the
concatenation of the `raw` fields over all reported pages is `["a", ""]`
— one record more than the file's lines as the spec counts them
(`["a"]`: the trailing newline ends the single line and leaves no
non-empty trailing fragment), so the reconstruction property fails as
stated. -/
theorem claim_C1_counterexample :
    ((List.range (readPage [97, 10] (runIndexingJob [97, 10] INDEX_STRIDE 1000).checkpoints
        (runIndexingJob [97, 10] INDEX_STRIDE 1000).totalLines 1 1).totalPages).map
      (fun q => ((readPage [97, 10] (runIndexingJob [97, 10] INDEX_STRIDE 1000).checkpoints
        (runIndexingJob [97, 10] INDEX_STRIDE 1000).totalLines 1 ((q + 1 : Nat) : Int)).lines).map
          (fun r => r.raw))).flatten = [[97], []] ∧
    specFileLines [97, 10] = [[97]] ∧
    ((List.range (readPage [97, 10] (runIndexingJob [97, 10] INDEX_STRIDE 1000).checkpoints
        (runIndexingJob [97, 10] INDEX_STRIDE 1000).totalLines 1 1).totalPages).map
      (fun q => ((readPage [97, 10] (runIndexingJob [97, 10] INDEX_STRIDE 1000).checkpoints
        (runIndexingJob [97, 10] INDEX_STRIDE 1000).totalLines 1 ((q + 1 : Nat) : Int)).lines).map
          (fun r => r.raw))).flatten ≠ specFileLines [97, 10] := by
  refine ⟨by decide, by decide, by decide⟩

/-- C1 (amended): for every non-empty file that fits in one 16 KB read
window and does not end in a newline (so the code's split-on-`\n` line
convention and the spec's line count agree), every page size `≥ 1`, every
indexing progress point `k` (from none of the file scanned through
completion), and every page horizon `P` covering all lines, the
concatenation of the `raw` fields of the records returned by `readPage`
over pages `1..P` is exactly the file's newline-split lines (trailing
`\r` stripped), in order, with no duplication or omission. -/
theorem claim_C1_amended (F : Bytes) (stride k n P : Nat) (t? : Option Nat)
    (hne : F ≠ []) (hsize : F.length ≤ PAGE_BUFFER_SIZE)
    (hlast : F.getLast? ≠ some 10) (hn : 1 ≤ n)
    (hP : (splitNl F).length ≤ P * n) :
    ((List.range P).map (fun q =>
      ((readPage F (idxStateAfter F stride k).checkpoints t? n ((q + 1 : Nat) : Int)).lines).map
        (fun r => r.raw))).flatten = rawLines F := by
  have hmap : ∀ q ∈ List.range P,
      ((readPage F (idxStateAfter F stride k).checkpoints t? n ((q + 1 : Nat) : Int)).lines).map
          (fun r => r.raw)
        = (List.map stripCR) (((splitNl F).drop (q * n)).take n) := by
    intro q _
    rw [readPage_slice F stride k n q t? hne hsize hlast hn, recordsFrom_raw]
  rw [List.map_congr_left hmap]
  have hcomp : (List.range P).map
        (fun q => (List.map stripCR) (((splitNl F).drop (q * n)).take n))
      = (List.range P).map
          (List.map stripCR ∘ fun q => ((splitNl F).drop (q * n)).take n) := rfl
  rw [hcomp, ← List.map_map, ← List.map_flatten,
    join_chunks n P (splitNl F) hP]
  rfl

/-- C1 (witness): the amended theorem applied to the file `"x\ny"`,
page size 1, indexing complete, two pages. -/
theorem claim_C1_witness :
    (([120, 10, 121] : Bytes) ≠ [] ∧ ([120, 10, 121] : Bytes).length ≤ PAGE_BUFFER_SIZE ∧
      ([120, 10, 121] : Bytes).getLast? ≠ some 10 ∧ (1 : Nat) ≤ 1 ∧
      (splitNl [120, 10, 121]).length ≤ 2 * 1) ∧
    ((List.range 2).map (fun q =>
      ((readPage [120, 10, 121] (idxStateAfter [120, 10, 121] INDEX_STRIDE 5).checkpoints
        (some 2) 1 ((q + 1 : Nat) : Int)).lines).map (fun r => r.raw))).flatten
      = rawLines [120, 10, 121] :=
  ⟨⟨by decide, by decide, by decide, by decide, by decide⟩,
    claim_C1_amended [120, 10, 121] INDEX_STRIDE 5 1 2 (some 2)
      (by decide) (by decide) (by decide) (by decide) (by decide)⟩

/-- C2 (code_bug evidence): stopping the indexing job before its first
loop check (the file `"a\nb\nc"` has 3 lines) still runs the completion
block: `totalLines` is recorded as the partial count 1, a final
`indexed: true` progress event is emitted, and the seed checkpoint
remains — whereas the claim requires that no `totalLines` be recorded
and no `indexed=true` event be emitted after `stop`. -/
theorem claim_C2_stop_completion :
    (runIndexingJob [97, 10, 98, 10, 99] INDEX_STRIDE 0).totalLines = some 1 ∧
    (runIndexingJob [97, 10, 98, 10, 99] INDEX_STRIDE 0).events = [⟨1, true⟩] ∧
    (runIndexingJob [97, 10, 98, 10, 99] INDEX_STRIDE 0).checkpoints = [⟨1, 0⟩] := by
  refine ⟨by decide, by decide, by decide⟩

/-- C3: on the three-line file `{"a":1}` / `not json` / blank, an
`errorsOnly` search (as the webview issues it: empty query text,
`maxResults` 1000) returns exactly one result — line 2, raw `not json`,
with no parsed value attached and a parse error attached — the blank
line is not among the results, and the search is not interrupted. -/
theorem claim_C3_errors_only :
    ((searchSpec ⟨[], false, 1000, true⟩
      [[123, 34, 97, 34, 58, 49, 125], [110, 111, 116, 32, 106, 115, 111, 110], []]).1).map
        (fun r => (r.lineNumber, r.raw, r.parsedOk, r.error))
      = [(2, [110, 111, 116, 32, 106, 115, 111, 110], false, true)] ∧
    (searchSpec ⟨[], false, 1000, true⟩
      [[123, 34, 97, 34, 58, 49, 125], [110, 111, 116, 32, 106, 115, 111, 110], []]).2 = false := by
  refine ⟨by decide, by decide⟩

/-- C4 (counterexample): a query matching exactly one line, with
`maxResults = 0 < 1 = K`, returns one result, not zero — the cap is only
checked after a result is appended, so "exactly maxResults results"
fails for `maxResults = 0`. -/
theorem claim_C4_counterexample :
    matchCount ⟨[97], false, 0, false⟩ [[97]] = 1 ∧
    (0 : Nat) < matchCount ⟨[97], false, 0, false⟩ [[97]] ∧
    (search ⟨[97], false, 0, false⟩ [[97]]).1.length = 1 ∧
    (search ⟨[97], false, 0, false⟩ [[97]]).1.length ≠ 0 := by
  refine ⟨by decide, by decide, by decide, by decide⟩

/-- C4 (amended): for `maxResults ≥ 1` and a literal query matching
exactly K lines: if `maxResults ≥ K` the search returns exactly K
results, and is not interrupted when `maxResults > K`; if
`maxResults < K` it returns exactly `maxResults` results with
`interrupted = true` (the flag per spec §4.3, as the snapshot lacks the
searchService revision that reports it). -/
theorem claim_C4_amended (opts : SearchOptions) (lines : List Bytes)
    (h1 : 1 ≤ opts.maxResults) :
    (matchCount opts lines ≤ opts.maxResults →
      (search opts lines).1.length = matchCount opts lines) ∧
    (matchCount opts lines < opts.maxResults →
      interruptedFlag (search opts lines) = false) ∧
    (opts.maxResults < matchCount opts lines →
      (search opts lines).1.length = opts.maxResults ∧
        interruptedFlag (search opts lines) = true) := by
  refine ⟨?_, ?_, ?_⟩
  · intro hK
    have := searchGo_length_of_le opts lines 0 0 [] (by simpa using h1) (by simpa using hK)
    unfold search
    simpa using this
  · intro hK
    have := searchGo_rest_nil opts lines 0 0 [] (by simpa using hK)
    unfold interruptedFlag search
    rw [this]
    rfl
  · intro hK
    obtain ⟨hlen, hrest⟩ := searchGo_capped opts lines 0 0 []
      (by simpa using h1) (by simpa using hK)
    refine ⟨hlen, ?_⟩
    unfold interruptedFlag search
    cases hr : (searchGo opts lines 0 0 []).2 with
    | nil => exact absurd hr hrest
    | cons a as => rfl

/-- C4 (witness): the amended theorem at a three-line file with two
matches and `maxResults = 2`. -/
theorem claim_C4_witness :
    (1 : Nat) ≤ 2 ∧
    (search ⟨[97], false, 2, false⟩ [[97], [98], [97]]).1.length
      = matchCount ⟨[97], false, 2, false⟩ [[97], [98], [97]] :=
  ⟨by decide,
    (claim_C4_amended ⟨[97], false, 2, false⟩ [[97], [98], [97]] (by decide)).1 (by decide)⟩

/-- C5: a search whose query text is empty with `errorsOnly` false
returns the empty result set with no interruption, for every file —
the result does not depend on the file's contents, reflecting the
immediate rejection without a scan. -/
theorem claim_C5_empty_query (q : SearchQuery) (lines : List Bytes)
    (ht : q.text = []) (he : q.errorsOnly = false) :
    searchSpec q lines = ([], false) := by
  unfold searchSpec
  rw [if_pos ⟨ht, he⟩]

/-- C5 (witness): the rejection at a concrete query and file. -/
theorem claim_C5_witness :
    (⟨[], false, 100, false⟩ : SearchQuery).text = [] ∧
    (⟨[], false, 100, false⟩ : SearchQuery).errorsOnly = false ∧
    searchSpec ⟨[], false, 100, false⟩ [[97], [98]] = ([], false) :=
  ⟨rfl, rfl, claim_C5_empty_query ⟨[], false, 100, false⟩ [[97], [98]] rfl rfl⟩

/-- C6 (counterexample): on the file `"a\nb"`, fully indexed, page 1 of
size 2, the record for line 2 carries `byteOffset = 0` although the line
starts at byte offset 2 — the reader passes a constant 0 — so exactness
of `byteOffset` fails as claimed. -/
theorem claim_C6_counterexample :
    ¬ (∀ r ∈ (readPage [97, 10, 98] [⟨1, 0⟩] (some 2) 2 1).lines,
        r.byteOffset = startOfLine (splitNl [97, 10, 98]) (r.lineNumber - 1)) := by
  decide

/-- C6 (amended): records from `readPage` (and `readLine`) always carry
`byteOffset = 0`; records from `search` carry the exact byte offset of
the start of their line in the underlying LF-delimited file: the bytes
of the file from that offset on are exactly the remaining lines. -/
theorem claim_C6_amended (F : Bytes) (idx : List SparseIndexEntry) (t? : Option Nat)
    (n : Nat) (p ln : Int) (opts : SearchOptions) (lines0 : List Bytes)
    (_hnl : ∀ l ∈ lines0, 10 ∉ l) :
    (∀ r ∈ (readPage F idx t? n p).lines, r.byteOffset = 0) ∧
    (∀ r, readLine F idx ln = some r → r.byteOffset = 0) ∧
    (∀ r ∈ (search opts lines0).1,
      r.byteOffset = startOfLine lines0 (r.lineNumber - 1) ∧
        (joinNl lines0).drop r.byteOffset = joinNl (lines0.drop (r.lineNumber - 1))) := by
  refine ⟨?_, ?_, ?_⟩
  · intro r hr
    rw [readPage_lines] at hr
    exact readLinesFromOffset_offset_zero F _ _ _ r hr
  · intro r hr
    unfold readLine at hr
    have hmem : r ∈ readLinesFromOffset F (getNearestOffset idx ln) ln 1 :=
      List.mem_of_mem_head? (by rw [hr]; rfl)
    exact readLinesFromOffset_offset_zero F _ _ _ r hmem
  · intro r hr
    have hinv := searchGo_offsets opts lines0 lines0 0 0 [] rfl rfl
      (by intro r hr; simp at hr) r (by unfold search at hr; exact hr)
    obtain ⟨hoff, h1, h2⟩ := hinv
    refine ⟨hoff, ?_⟩
    rw [hoff]
    exact joinNl_drop lines0 (r.lineNumber - 1) (by omega)

/-- C6 (witness): the amended theorem at a concrete file/search. -/
theorem claim_C6_witness :
    (∀ l ∈ ([[97, 98], [99]] : List Bytes), 10 ∉ l) ∧
    (∀ r ∈ (search ⟨[], false, 10, false⟩ [[97, 98], [99]]).1,
      r.byteOffset = startOfLine [[97, 98], [99]] (r.lineNumber - 1) ∧
        (joinNl [[97, 98], [99]]).drop r.byteOffset
          = joinNl (([[97, 98], [99]] : List Bytes).drop (r.lineNumber - 1))) :=
  ⟨by decide,
    (claim_C6_amended [97, 10, 98] [⟨1, 0⟩] none 2 1 1 ⟨[], false, 10, false⟩
      [[97, 98], [99]] (by decide)).2.2⟩

/-- C7: for every file, every stride, and every point `k` during or
after the indexing scan, the checkpoint sequence starts with the seed
`{line 1, offset 0}` and is strictly increasing in both `line` and
`offset`. -/
theorem claim_C7_checkpoints (F : Bytes) (stride k : Nat) :
    (idxStateAfter F stride k).checkpoints.head? = some ⟨1, 0⟩ ∧
    List.Chain' cpMono (idxStateAfter F stride k).checkpoints := by
  obtain ⟨h1, h2, _⟩ := idxStateAfter_inv F stride k
  exact ⟨h1, h2⟩

/-- C8 (counterexample): `readPage` performs no validation: a request
for page 0 on the fully indexed file `"a\nb"` is served from the seed
checkpoint and returns the first line's record instead of being
rejected with no records. -/
theorem claim_C8_counterexample :
    (readPage [97, 10, 98] [⟨1, 0⟩] (some 2) 1 0).lines ≠ [] ∧
    ((readPage [97, 10, 98] [⟨1, 0⟩] (some 2) 1 0).lines).map (fun r => r.raw) = [[97]] := by
  refine ⟨by decide, by decide⟩

/-- C8 (amended): out-of-range page requests (page < 1, or beyond the
known total once indexed) are rejected by the webview's `changePage`
guard — no `requestPage` message is sent — rather than by `readPage`,
which itself serves any page number. -/
theorem claim_C8_amended (p : Int) (isIndexed : Bool) (totalPages : Int)
    (h : p < 1 ∨ (isIndexed = true ∧ totalPages < p)) :
    changePageSends p isIndexed totalPages = false := by
  unfold changePageSends
  rw [if_pos h]

/-- C8 (witness): the guard at page 0. -/
theorem claim_C8_witness :
    ((0 : Int) < 1 ∨ (true = true ∧ (5 : Int) < 0)) ∧
    changePageSends 0 true 5 = false :=
  ⟨Or.inl (by decide), claim_C8_amended 0 true 5 (Or.inl (by decide))⟩

/-- C9: with `maxResults = 0`, a search over a file containing at least
one matching line returns exactly one result, not zero: the cap is
checked only after a match has been appended. -/
theorem claim_C9_cap_after_append (opts : SearchOptions) (lines : List Bytes)
    (h0 : opts.maxResults = 0)
    (hex : lines.filter (fun l => matcherAccepts opts.caseSensitive opts.query l) ≠ []) :
    (search opts lines).1.length = 1 := by
  unfold search
  exact searchGo_maxZero opts h0 lines 0 0 hex

/-- C9 (witness): `maxResults = 0` on a file whose second line matches. -/
theorem claim_C9_witness :
    (⟨[97], false, 0, false⟩ : SearchOptions).maxResults = 0 ∧
    ([[98], [97]] : List Bytes).filter
      (fun l => matcherAccepts false [97] l) ≠ [] ∧
    (search ⟨[97], false, 0, false⟩ [[98], [97]]).1.length = 1 :=
  ⟨rfl, by decide,
    claim_C9_cap_after_append ⟨[97], false, 0, false⟩ [[98], [97]] rfl (by decide)⟩

/-- C10: for every checkpoint list with strictly increasing lines and
every target line (negative targets included), `getNearestOffset`
returns the seed `{1,0}` when no index exists; otherwise an element of
the list — the first entry when every stored line exceeds the target,
and the last entry whose line does not exceed the target otherwise. -/
theorem claim_C10_nearest (idx : List SparseIndexEntry) (target : Int)
    (hsort : ∀ i j, i < j → j < idx.length → lineAt idx i < lineAt idx j) :
    (idx = [] → getNearestOffset idx target = ⟨1, 0⟩) ∧
    (idx ≠ [] → getNearestOffset idx target ∈ idx) ∧
    (idx ≠ [] → (∀ e ∈ idx, target < (e.line : Int)) →
      getNearestOffset idx target = idx.headD ⟨1, 0⟩) ∧
    (∀ e ∈ idx, (e.line : Int) ≤ target →
      ((getNearestOffset idx target).line : Int) ≤ target ∧
        e.line ≤ (getNearestOffset idx target).line) := by
  refine ⟨?_, ?_, ?_, ?_⟩
  · intro he
    subst he
    rfl
  · intro hne
    exact getNearestOffset_mem idx target hne
  · intro hne hall
    exact (getNearestOffset_spec idx target hsort hne).1 hall
  · intro e he hle
    have hne : idx ≠ [] := by
      intro h
      subst h
      simp at he
    exact (getNearestOffset_spec idx target hsort hne).2 e he hle

/-- C10 (witness): lookup between two checkpoints. -/
theorem claim_C10_witness :
    getNearestOffset [⟨1, 0⟩, ⟨1001, 5000⟩] 1500 ∈
      ([⟨1, 0⟩, ⟨1001, 5000⟩] : List SparseIndexEntry) ∧
    ((getNearestOffset [⟨1, 0⟩, ⟨1001, 5000⟩] 1500).line : Int) ≤ 1500 ∧
    1001 ≤ (getNearestOffset [⟨1, 0⟩, ⟨1001, 5000⟩] 1500).line := by
  have hsort : ∀ i j, i < j → j < ([⟨1, 0⟩, ⟨1001, 5000⟩] : List SparseIndexEntry).length →
      lineAt [⟨1, 0⟩, ⟨1001, 5000⟩] i < lineAt [⟨1, 0⟩, ⟨1001, 5000⟩] j := by
    intro i j hij hj
    have hj1 : j = 1 := by
      simp at hj
      omega
    have hi0 : i = 0 := by omega
    subst hj1
    subst hi0
    decide
  refine ⟨(claim_C10_nearest _ 1500 hsort).2.1 (by decide), ?_, ?_⟩
  · exact ((claim_C10_nearest _ 1500 hsort).2.2.2 ⟨1001, 5000⟩ (by decide) (by decide)).1
  · exact ((claim_C10_nearest _ 1500 hsort).2.2.2 ⟨1001, 5000⟩ (by decide) (by decide)).2

end JsonlVerify
